import Mathlib

/-!
# Verification of the RideNet data-preprocessing pipeline

Shallow embedding of `src/data-preprocessing/extract_osm.py`,
`preprocess.py` and `preprocessing_utils.py`, together with proofs of the
specification claims about them.

Conventions of the embedding:
* Python floats (coordinates) are modelled as `ℚ`; the pipeline only
  stores and compares coordinates, so exact rationals are adequate.
* Python dicts keyed by node id are modelled as association lists with
  update-or-append assignment (`dictInsert`), preserving insertion order.
* The per-segment attribute dict created in `RoadGraphExtractor.way` is a
  mutable Python object shared by reference between the forward and the
  reverse edge; object identity is modelled by tagging each created
  attribute dict with a fresh allocation number (`nextId`).  Two edges
  alias the same attribute storage iff they carry the same tag.
* Exceptions are modelled with `Except PyError`; `max()` applied to an
  empty sequence raises `ValueError`, modelled by
  `PyError.valueErrorEmptyMax`.
-/

/-- Error values observed by callers of the Python functions. -/
inductive PyError where
  /-- `ValueError: max() arg is an empty sequence`, raised by the builtin
  `max` when applied to an empty iterable (no explicit emptiness check in
  the caller). -/
  | valueErrorEmptyMax
  /-- `FileNotFoundError` from `open`. -/
  | fileNotFound
  /-- `pickle.UnpicklingError`. -/
  | unpicklingError
  /-- any other exception (caught by `except Exception`). -/
  | otherException
deriving DecidableEq, Repr

/-- Attributes stored on a directed edge.  `RoadGraphExtractor.way` creates
`{"highway": road_type, "geometry": segment_geometry}`; `add_edge_distances`
may later add a `"distance"` key. -/
structure EdgeData where
  highway : Option String := none
  geometry : Option (List (ℚ × ℚ)) := none
  distance : Option ℚ := none
deriving DecidableEq, Repr

/-- Python dict lookup `d.get(k)` on an association list. -/
def dictGet? {α : Type} (d : List (Nat × α)) (k : Nat) : Option α :=
  (d.find? (fun p => p.1 == k)).map (fun p => p.2)

/-- Python dict assignment `d[k] = v`: overwrite the existing entry if the
key is present, otherwise append a new entry (dicts preserve insertion
order). -/
def dictInsert {α : Type} (d : List (Nat × α)) (k : Nat) (v : α) : List (Nat × α) :=
  if d.any (fun p => p.1 == k) then
    d.map (fun p => if p.1 = k then (k, v) else p)
  else
    d ++ [(k, v)]

/-- `k in d` for the association-list dict model. -/
def keyMem {α : Type} (d : List (Nat × α)) (k : Nat) : Prop :=
  ∃ v, (k, v) ∈ d

instance {α : Type} (d : List (Nat × α)) (k : Nat) : Decidable (keyMem d k) :=
  decidable_of_iff (∃ p ∈ d, p.1 = k) (by
    constructor
    · rintro ⟨⟨a, b⟩, hmem, h⟩
      subst h
      exact ⟨b, hmem⟩
    · rintro ⟨v, hv⟩
      exact ⟨(k, v), hv, rfl⟩)

/-- Lookup in an OSM tag mapping (`way.tags`); keys are unique in OSM, we
take the first matching entry. -/
def tagsGet (tags : List (String × String)) (k : String) : Option String :=
  (tags.find? (fun p => p.1 == k)).map (fun p => p.2)

/-- Python `str.lower()`, character by character (the tag values compared
against `yes`/`true`/`1` are ASCII, where this agrees with Python). -/
def strLower (s : String) : String := String.mk (s.data.map Char.toLower)

/-- `way.tags.get('oneway', 'no').lower() in ['yes', 'true', '1']` -/
def isOneway (tags : List (String × String)) : Bool :=
  decide (strLower ((tagsGet tags "oneway").getD "no") ∈ (["yes", "true", "1"] : List String))

/-- The mutable state of `RoadGraphExtractor` plus the allocation counter
for attribute dicts. -/
structure ExtractorState where
  min_lon : ℚ
  min_lat : ℚ
  max_lon : ℚ
  max_lat : ℚ
  valid_road_types : List String
  /-- `self.nodes : {node_id: (longitude, latitude)}` -/
  nodes : List (Nat × (ℚ × ℚ)) := []
  /-- `self.edges : [(source_node, target_node, attributes)]`; the last
  component is the allocation number of the attribute dict, equal numbers
  meaning the very same Python dict object. -/
  edges : List (Nat × Nat × EdgeData × Nat) := []
  /-- next fresh allocation number. -/
  nextId : Nat := 0
deriving DecidableEq, Repr

/-- `RoadGraphExtractor.__init__` with an already-loaded road-type set. -/
def initExtractor (bbox : ℚ × ℚ × ℚ × ℚ) (roadTypes : List String) : ExtractorState :=
  { min_lon := bbox.1, min_lat := bbox.2.1, max_lon := bbox.2.2.1, max_lat := bbox.2.2.2
    valid_road_types := roadTypes }

/-- The bounding-box test of `RoadGraphExtractor.node`:
`self.min_lon <= lon <= self.max_lon and self.min_lat <= lat <= self.max_lat`. -/
def inBox (s : ExtractorState) (lon lat : ℚ) : Prop :=
  s.min_lon ≤ lon ∧ lon ≤ s.max_lon ∧ s.min_lat ≤ lat ∧ lat ≤ s.max_lat

instance (s : ExtractorState) (lon lat : ℚ) : Decidable (inBox s lon lat) := by
  unfold inBox; infer_instance

/-- `RoadGraphExtractor.node`. -/
def nodeHandler (s : ExtractorState) (id : Nat) (lon lat : ℚ) : ExtractorState :=
  if inBox s lon lat then
    { s with nodes := dictInsert s.nodes id (lon, lat) }
  else s

/-- One iteration of the `for start, end in zip(nodes[:-1], nodes[1:])`
loop of `RoadGraphExtractor.way`: if both endpoint ids are in the node
table, create one attribute dict and append the forward edge, and, when the
way is not oneway, also the reverse edge carrying the same dict. -/
def processSegment (oneway : Bool) (road_type : String)
    (st : ExtractorState) (pr : Nat × Nat) : ExtractorState :=
  match dictGet? st.nodes pr.1, dictGet? st.nodes pr.2 with
  | some p, some q =>
    let attrs : EdgeData := { highway := some road_type, geometry := some [p, q] }
    let st1 := { st with edges := st.edges ++ [(pr.1, pr.2, attrs, st.nextId)] }
    let st2 :=
      if oneway then st1
      else { st1 with edges := st1.edges ++ [(pr.2, pr.1, attrs, st.nextId)] }
    { st2 with nextId := st.nextId + 1 }
  | _, _ => st

/-- `RoadGraphExtractor.way`. -/
def wayHandler (s : ExtractorState) (tags : List (String × String))
    (refs : List Nat) : ExtractorState :=
  match tagsGet tags "highway" with
  | none => s
  | some road_type =>
    if road_type ∈ s.valid_road_types then
      (refs.dropLast.zip refs.tail).foldl (processSegment (isOneway tags) road_type) s
    else s

/-- A typed element of the OSM input stream. -/
inductive OSMElement where
  | node (id : Nat) (lon lat : ℚ)
  | way (tags : List (String × String)) (refs : List Nat)
deriving DecidableEq, Repr

/-- Dispatch of one stream element to the matching handler. -/
def handleElement (s : ExtractorState) : OSMElement → ExtractorState
  | .node id lon lat => nodeHandler s id lon lat
  | .way tags refs => wayHandler s tags refs

/-- `extractor.apply_file(osm_file)`: process the stream in order. -/
def runExtractor (s : ExtractorState) (evs : List OSMElement) : ExtractorState :=
  evs.foldl handleElement s

/-- The node ids of the node elements of a stream, in stream order. -/
def nodeIdsOf (evs : List OSMElement) : List Nat :=
  evs.filterMap (fun ev => match ev with | .node id _ _ => some id | _ => none)

/-- A `networkx.MultiDiGraph`: nodes in insertion order with optional
`x`/`y` attributes, a list of directed edges (parallel edges kept), and the
graph-level `crs` marker. -/
structure NXGraph where
  nodes : List (Nat × Option (ℚ × ℚ)) := []
  edges : List (Nat × Nat × EdgeData) := []
  crs : Option String := none
deriving DecidableEq, Repr

/-- The node ids of a graph, in insertion order. -/
def nodeIds (g : NXGraph) : List Nat := g.nodes.map (fun p => p.1)

/-- `graph.add_node(id, x=.., y=..)`: update attributes if present,
otherwise append. -/
def add_node (g : NXGraph) (id : Nat) (xy : ℚ × ℚ) : NXGraph :=
  if id ∈ nodeIds g then
    { g with nodes := g.nodes.map (fun p => if p.1 = id then (id, some xy) else p) }
  else
    { g with nodes := g.nodes ++ [(id, some xy)] }

/-- The auto-add of a missing endpoint performed by `graph.add_edge`:
an absent node is appended without coordinate attributes. -/
def addMissing (g : NXGraph) (u : Nat) : NXGraph :=
  if u ∈ nodeIds g then g else { g with nodes := g.nodes ++ [(u, none)] }

/-- `graph.add_edge(u, v, **attr)`: missing endpoints are auto-added
(without coordinate attributes), then the edge is appended; `**attr`
passes a copy of the attribute dict. -/
def add_edge (g : NXGraph) (u v : Nat) (d : EdgeData) : NXGraph :=
  { addMissing (addMissing g u) v with
    edges := (addMissing (addMissing g u) v).edges ++ [(u, v, d)] }

/-- The graph-assembly step of `generate_road_graph`: add one graph node
per node-table entry, then one edge per edge-list entry, then set the
`crs` marker. -/
def assembleGraph (ex : ExtractorState) : NXGraph :=
  let g0 : NXGraph := {}
  let g1 := ex.nodes.foldl (fun g p => add_node g p.1 p.2) g0
  let g2 := ex.edges.foldl (fun g e => add_edge g e.1 e.2.1 e.2.2.1) g1
  { g2 with crs := some "epsg:4326" }

/-- The node set of a graph as a finite set. -/
def nodeSet (g : NXGraph) : Finset Nat := (nodeIds g).toFinset

/-- Undirected adjacency: some directed edge joins `u` and `v` in either
direction. -/
def adjb (g : NXGraph) (u v : Nat) : Bool :=
  g.edges.any (fun e => (e.1 == u && e.2.1 == v) || (e.1 == v && e.2.1 == u))

/-- One breadth step of the undirected closure: add every graph node
adjacent to the current set. -/
def expandStep (g : NXGraph) (s : Finset Nat) : Finset Nat :=
  s ∪ (nodeSet g).filter (fun v => ∃ u ∈ s, adjb g u v = true)

/-- The weakly connected component of `v`: the undirected closure of
`{v}`, reached after at most `|nodes|` breadth steps. -/
def component (g : NXGraph) (v : Nat) : Finset Nat :=
  (expandStep g)^[(nodeSet g).card] {v}

/-- `networkx.weakly_connected_components`: iterate over the graph's nodes
in order, and for each not-yet-seen node yield its component and mark the
whole component as seen. -/
def wccsAux (g : NXGraph) : List Nat → Finset Nat → List (Finset Nat)
  | [], _ => []
  | v :: vs, seen =>
    if v ∈ seen then wccsAux g vs seen
    else component g v :: wccsAux g vs (seen ∪ component g v)

/-- The weakly connected components of a graph, in first-encounter order. -/
def wccs (g : NXGraph) : List (Finset Nat) :=
  wccsAux g (nodeIds g) ∅

/-- Python `max(iterable, key=len)`: `None` (a raised `ValueError`) on an
empty iterable, otherwise the first element of maximal length (the running
maximum is replaced only on strictly greater keys). -/
def pyMax (l : List (Finset Nat)) : Option (Finset Nat) :=
  match l with
  | [] => none
  | x :: xs => some (xs.foldl (fun b c => if b.card < c.card then c else b) x)

/-- `graph.subgraph(c).copy()`: the induced subgraph on `c` — the graph's
nodes restricted to `c` and exactly the edges with both endpoints in
`c`; graph-level attributes are kept. -/
def inducedSubgraph (g : NXGraph) (c : Finset Nat) : NXGraph :=
  { nodes := g.nodes.filter (fun p => decide (p.1 ∈ c))
    edges := g.edges.filter (fun e => decide (e.1 ∈ c) && decide (e.2.1 ∈ c))
    crs := g.crs }

/-- `extract_largest_subgraph`: `max(nx.weakly_connected_components(graph),
key=len)` followed by `graph.subgraph(...).copy()`.  There is no emptiness
check: on a graph with zero nodes the builtin `max` raises `ValueError`. -/
def extract_largest_subgraph (g : NXGraph) : Except PyError NXGraph :=
  match pyMax (wccs g) with
  | none => Except.error PyError.valueErrorEmptyMax
  | some c => Except.ok (inducedSubgraph g c)

/-- Edge endpoints always belong to the node set (networkx guarantees this
for every `MultiDiGraph` by construction). -/
def Wellformed (g : NXGraph) : Prop :=
  ∀ e ∈ g.edges, e.1 ∈ nodeIds g ∧ e.2.1 ∈ nodeIds g

instance (g : NXGraph) : Decidable (Wellformed g) := by
  unfold Wellformed
  infer_instance

/-- One undirected step, as a relation. -/
def wstep (g : NXGraph) (u v : Nat) : Prop := adjb g u v = true

/-- Weak reachability: reflexive-transitive closure of undirected steps. -/
def wreach (g : NXGraph) (u v : Nat) : Prop := Relation.ReflTransGen (wstep g) u v

/-- `c` is a weakly connected component of `g`: the set of all nodes
weakly reachable from some node of `g`. -/
def IsWCC (g : NXGraph) (c : Finset Nat) : Prop :=
  ∃ v, v ∈ nodeIds g ∧ ∀ w, (w ∈ c ↔ wreach g v w)

/-- `add_edge_distances` from `preprocess.py`, parameterized by the
external `geodesic(..).meters` function.  For every edge whose geometry is
present with exactly two points, the two points `(lon, lat)` are swapped
into `(lat, lon)` pairs and the computed distance is stored; every other
edge is left untouched. -/
def add_edge_distances (dist : ℚ × ℚ → ℚ × ℚ → ℚ) (g : NXGraph) : NXGraph :=
  { g with
    edges := g.edges.map (fun e =>
      match e.2.2.geometry with
      | some [p0, p1] =>
        (e.1, e.2.1,
          { e.2.2 with distance := some (dist (p0.2, p0.1) (p1.2, p1.1)) })
      | _ => e) }

/-- What happens while `load_graph` runs: either the whole `try` body
succeeds and produces a graph, or one of the modelled exceptions is raised
inside it. -/
inductive LoadEvent where
  /-- `open` raises `FileNotFoundError`. -/
  | openFail
  /-- `pickle.load` raises `pickle.UnpicklingError`. -/
  | unpickleFail
  /-- any other exception inside the `try` body. -/
  | otherFail
  /-- the body completes with graph `g`. -/
  | ok (g : NXGraph)
deriving DecidableEq, Repr

/-- `load_graph`: all three `except` arms log and fall through to
`return None`; only a completed `try` body returns the graph. -/
def load_graph : LoadEvent → Option NXGraph
  | .openFail => none
  | .unpickleFail => none
  | .otherFail => none
  | .ok g => some g

/-- The caller-observable outcome of `save_graph`. -/
structure SaveOutcome where
  /-- what the call evaluates to for its caller: `Except.ok ()` models the
  implicit `return None`, `Except.error e` would model an escaping
  exception. -/
  returned : Except PyError Unit
  /-- the in-memory graph after the call. -/
  graphAfter : NXGraph
  /-- the error handed to `logger.error`, if any. -/
  loggedError : Option PyError
deriving Repr

/-- `save_graph`, parameterized by the outcome of the `pickle.dump` write:
the `except Exception` arm logs the failure and the function returns
normally either way; the graph argument is never modified. -/
def save_graph (g : NXGraph) (writeResult : Except PyError Unit) : SaveOutcome :=
  match writeResult with
  | .ok _ => { returned := .ok (), graphAfter := g, loggedError := none }
  | .error e => { returned := .ok (), graphAfter := g, loggedError := some e }

/-- A per-region bounding box as returned by `ox.geocode_to_gdf(..).total_bounds`. -/
structure BBox where
  min_lon : ℚ
  min_lat : ℚ
  max_lon : ℚ
  max_lat : ℚ
deriving DecidableEq, Repr

/-- `retrieve_boundary`, parameterized by the external geocoding lookup.
The accumulators start at `float('inf')` / `float('-inf')`, modelled as
`⊤ : WithTop ℚ` / `⊥ : WithBot ℚ` (IEEE `min`/`max` against infinities
agree with the lattice operations). -/
def retrieve_boundary (lookup : String → BBox) (regions : List String) :
    WithTop ℚ × WithTop ℚ × WithBot ℚ × WithBot ℚ :=
  regions.foldl
    (fun acc region =>
      (min acc.1 ((lookup region).min_lon : WithTop ℚ),
       min acc.2.1 ((lookup region).min_lat : WithTop ℚ),
       max acc.2.2.1 ((lookup region).max_lon : WithBot ℚ),
       max acc.2.2.2 ((lookup region).max_lat : WithBot ℚ)))
    (⊤, ⊤, ⊥, ⊥)

/-! ## Association-list dictionary lemmas -/

lemma keyMem_iff_mem_keys {α : Type} (d : List (Nat × α)) (k : Nat) :
    keyMem d k ↔ k ∈ d.map Prod.fst := by
  unfold keyMem
  rw [List.mem_map]
  constructor
  · rintro ⟨v, hv⟩
    exact ⟨(k, v), hv, rfl⟩
  · rintro ⟨⟨a, b⟩, hab, h⟩
    cases h
    exact ⟨b, hab⟩

lemma dictInsert_keys {α : Type} (d : List (Nat × α)) (k' : Nat) (v : α) :
    (dictInsert d k' v).map Prod.fst =
      if d.any (fun p => p.1 == k') then d.map Prod.fst else d.map Prod.fst ++ [k'] := by
  unfold dictInsert
  split
  case isTrue h =>
    simp only [List.map_map]
    refine List.map_congr_left ?_
    intro p _
    by_cases hp : p.1 = k' <;> simp [hp]
  case isFalse h => simp

lemma keyMem_dictInsert {α : Type} (d : List (Nat × α)) (k k' : Nat) (v : α) :
    keyMem (dictInsert d k' v) k ↔ k = k' ∨ keyMem d k := by
  rw [keyMem_iff_mem_keys, keyMem_iff_mem_keys, dictInsert_keys]
  split
  case isTrue h =>
    constructor
    · intro hm
      exact Or.inr hm
    · rintro (rfl | hm)
      · rw [List.any_eq_true] at h
        obtain ⟨p, hp, hpk⟩ := h
        rw [List.mem_map]
        exact ⟨p, hp, by simpa using hpk⟩
      · exact hm
  case isFalse h =>
    rw [List.mem_append]
    constructor
    · rintro (hm | hm)
      · exact Or.inr hm
      · exact Or.inl (by simpa using hm)
    · rintro (rfl | hm)
      · exact Or.inr (by simp)
      · exact Or.inl hm

lemma mem_dictInsert_elim {α : Type} {d : List (Nat × α)} {k k' : Nat} {p : α} {v : α}
    (h : (k, p) ∈ dictInsert d k' v) : (k, p) ∈ d ∨ (k = k' ∧ p = v) := by
  unfold dictInsert at h
  split at h
  case isTrue hany =>
    rw [List.mem_map] at h
    obtain ⟨⟨a, b⟩, hab, heq⟩ := h
    by_cases ha : a = k'
    · simp only [ha, if_pos rfl] at heq
      right
      exact ⟨(Prod.mk.injEq .. ▸ heq).1.symm ▸ rfl, ((Prod.mk.injEq ..).mp heq).2.symm⟩
    · simp only [if_neg ha] at heq
      left
      rw [← heq]
      exact hab
  case isFalse hany =>
    rw [List.mem_append] at h
    rcases h with hm | hm
    · exact Or.inl hm
    · right
      simpa using hm

lemma dictGet?_eq_some_mem {α : Type} {d : List (Nat × α)} {k : Nat} {v : α}
    (h : dictGet? d k = some v) : (k, v) ∈ d := by
  unfold dictGet? at h
  cases hf : d.find? (fun p => p.1 == k) with
  | none => rw [hf] at h; simp at h
  | some q =>
    rw [hf] at h
    simp only [Option.map_some', Option.some.injEq] at h
    have hq1 := List.find?_some hf
    have hq2 : q ∈ d := List.mem_of_find?_eq_some hf
    have hk : q.1 = k := by simpa using hq1
    have : (k, v) = q := by
      cases q
      simp_all
    rw [this]
    exact hq2

lemma keyMem_dictGet? {α : Type} {d : List (Nat × α)} {k : Nat}
    (h : keyMem d k) : ∃ v, dictGet? d k = some v := by
  unfold dictGet?
  have hs : (d.find? (fun p => p.1 == k)).isSome := by
    rw [List.find?_isSome]
    obtain ⟨v, hv⟩ := h
    exact ⟨(k, v), hv, by simp⟩
  obtain ⟨q, hq⟩ := Option.isSome_iff_exists.mp hs
  exact ⟨q.2, by rw [hq]; rfl⟩

lemma dictGet?_eq_none_of_not_keyMem {α : Type} {d : List (Nat × α)} {k : Nat}
    (h : ¬ keyMem d k) : dictGet? d k = none := by
  cases hg : dictGet? d k with
  | none => rfl
  | some v => exact absurd ⟨v, dictGet?_eq_some_mem hg⟩ h

/-! ## Claims about `preprocessing_utils.py` -/

/-- C10: `load_graph` never propagates an exception to its caller: every
raised error (missing file, unpicklable data, anything else inside the
`try` body) is caught by one of the three `except` arms, which all fall
through to `return None`; only a completed load returns the graph. -/
theorem load_graph_total_none_on_error :
    (∀ g : NXGraph, load_graph (LoadEvent.ok g) = some g) ∧
    (∀ ev : LoadEvent, (∀ g, ev ≠ LoadEvent.ok g) → load_graph ev = none) := by
  constructor
  · intro g
    rfl
  · intro ev hev
    cases ev with
    | openFail => rfl
    | unpickleFail => rfl
    | otherFail => rfl
    | ok g => exact absurd rfl (hev g)

/-- Witness for C10 at concrete inputs: a failed open yields `none` and a
successful load of the empty graph yields it back. -/
theorem load_graph_total_none_on_error_witness :
    load_graph LoadEvent.openFail = none ∧
    load_graph (LoadEvent.ok { nodes := [], edges := [], crs := none }) =
      some { nodes := [], edges := [], crs := none } :=
  ⟨load_graph_total_none_on_error.2 LoadEvent.openFail
      (fun _ h => LoadEvent.noConfusion h),
    load_graph_total_none_on_error.1 _⟩

/-- C9 counterexample: when the pickle write fails, `save_graph` catches
the exception in its `except Exception` arm and returns normally
(`return None`, modelled `Except.ok ()`), so the caller is NOT handed the
persistence error — refuting the claim's first conjunct at a concrete
input (`Except.ok () ≠ Except.error e` for every `e`, by constructor). -/
theorem save_graph_swallows_error_counterexample :
    (save_graph { nodes := [], edges := [], crs := none }
        (Except.error PyError.otherException)).returned = Except.ok () ∧
    (Except.ok () : Except PyError Unit) ≠ Except.error PyError.otherException := by
  constructor
  · rfl
  · intro h
    exact Except.noConfusion h

/-- C9 amended: when persisting fails, `save_graph` does NOT report the
error to its caller — it logs it and returns normally — and the in-memory
graph passed to it is left unchanged by the failed save. -/
theorem save_graph_logs_error_graph_unchanged (g : NXGraph)
    (w : Except PyError Unit) :
    (save_graph g w).graphAfter = g ∧
    (save_graph g w).returned = Except.ok () ∧
    (∀ e, w = Except.error e → (save_graph g w).loggedError = some e) := by
  cases w with
  | ok u =>
    refine ⟨rfl, rfl, ?_⟩
    intro e he
    exact Except.noConfusion he
  | error e =>
    refine ⟨rfl, rfl, ?_⟩
    intro e' he
    cases he
    rfl

/-- Witness for the amended C9 at a concrete failing write. -/
theorem save_graph_logs_error_graph_unchanged_witness :
    (save_graph { nodes := [], edges := [], crs := none }
        (Except.error PyError.fileNotFound)).graphAfter =
      { nodes := [], edges := [], crs := none } ∧
    (save_graph { nodes := [], edges := [], crs := none }
        (Except.error PyError.fileNotFound)).returned = Except.ok () ∧
    (save_graph { nodes := [], edges := [], crs := none }
        (Except.error PyError.fileNotFound)).loggedError =
      some PyError.fileNotFound :=
  ⟨(save_graph_logs_error_graph_unchanged _ _).1,
    (save_graph_logs_error_graph_unchanged _ _).2.1,
    (save_graph_logs_error_graph_unchanged _ _).2.2 PyError.fileNotFound rfl⟩

/-! ## Claims evaluated at concrete failing inputs -/

/-- C2: on a graph with zero nodes, `extract_largest_subgraph` performs
`max(nx.weakly_connected_components(graph), key=len)` on an empty
component sequence with no emptiness check, so the builtin `max` raises an
unchecked `ValueError` — not the explicit, catchable structural failure
the specification requires. -/
theorem extract_largest_subgraph_empty_valueerror :
    extract_largest_subgraph { nodes := [], edges := [], crs := none } =
      Except.error PyError.valueErrorEmptyMax := rfl

/-- The attribute dict created by `RoadGraphExtractor.way` for the single
segment of the C1 scenario (bounding box `(0, 0, 10, 10)`, road type
`primary` allowed, node 1 at `(1, 2)`, node 2 at `(3, 4)`, way `[1, 2]`
with no `oneway` tag). -/
def c1Attrs : EdgeData :=
  { highway := some "primary", geometry := some [(1, 2), (3, 4)] }

/-- The OSM stream of the C1 scenario. -/
def c1Events : List OSMElement :=
  [.node 1 1 2, .node 2 3 4, .way [("highway", "primary")] [1, 2]]

/-- C1: the extractor does emit a reverse edge with the identical road-type
tag, but it appends the very same attribute dict object for both
directions (both edges carry allocation number `0`), and that shared
geometry is the forward geometry `[(1, 2), (3, 4)]` — NOT its reverse
(`[(3, 4), (1, 2)]` differs).  The reverse edge's geometry is therefore
not reversed and its attribute storage is aliased with the forward
edge's. -/
theorem way_reverse_edge_unreversed_aliased :
    (runExtractor (initExtractor (0, 0, 10, 10) ["primary"]) c1Events).edges =
      [(1, 2, c1Attrs, 0), (2, 1, c1Attrs, 0)] ∧
    c1Attrs.geometry ≠ some [((3 : ℚ), (4 : ℚ)), (1, 2)] ∧
    [((3 : ℚ), (4 : ℚ)), (1, 2)] = [((1 : ℚ), (2 : ℚ)), (3, 4)].reverse := by
  refine ⟨by decide, by decide, by decide⟩

/-! ## C6: `retrieve_boundary` -/

lemma minimum_of_perm {l l' : List ℚ} (h : l.Perm l') : l.minimum = l'.minimum := by
  induction h with
  | nil => rfl
  | cons x _ ih => rw [List.minimum_cons, List.minimum_cons, ih]
  | swap x y l =>
    rw [List.minimum_cons, List.minimum_cons, List.minimum_cons, List.minimum_cons]
    exact min_left_comm _ _ _
  | trans _ _ ih1 ih2 => rw [ih1, ih2]

lemma maximum_of_perm {l l' : List ℚ} (h : l.Perm l') : l.maximum = l'.maximum := by
  induction h with
  | nil => rfl
  | cons x _ ih => rw [List.maximum_cons, List.maximum_cons, ih]
  | swap x y l =>
    rw [List.maximum_cons, List.maximum_cons, List.maximum_cons, List.maximum_cons]
    exact max_left_comm _ _ _
  | trans _ _ ih1 ih2 => rw [ih1, ih2]

lemma retrieve_boundary_fold (lookup : String → BBox) :
    ∀ (regions : List String) (a b : WithTop ℚ) (c d : WithBot ℚ),
      regions.foldl
        (fun acc region =>
          (min acc.1 ((lookup region).min_lon : WithTop ℚ),
           min acc.2.1 ((lookup region).min_lat : WithTop ℚ),
           max acc.2.2.1 ((lookup region).max_lon : WithBot ℚ),
           max acc.2.2.2 ((lookup region).max_lat : WithBot ℚ)))
        (a, b, c, d) =
      (min a (regions.map (fun r => (lookup r).min_lon)).minimum,
       min b (regions.map (fun r => (lookup r).min_lat)).minimum,
       max c (regions.map (fun r => (lookup r).max_lon)).maximum,
       max d (regions.map (fun r => (lookup r).max_lat)).maximum) := by
  intro regions
  induction regions with
  | nil =>
    intro a b c d
    simp [List.minimum_nil, List.maximum_nil, min_top_right, max_bot_right]
  | cons r rs ih =>
    intro a b c d
    rw [List.foldl_cons, ih]
    simp only [List.map_cons, List.minimum_cons, List.maximum_cons]
    rw [min_assoc, min_assoc, max_assoc, max_assoc]

lemma retrieve_boundary_eq (lookup : String → BBox) (regions : List String) :
    retrieve_boundary lookup regions =
      ((regions.map (fun r => (lookup r).min_lon)).minimum,
       (regions.map (fun r => (lookup r).min_lat)).minimum,
       (regions.map (fun r => (lookup r).max_lon)).maximum,
       (regions.map (fun r => (lookup r).max_lat)).maximum) := by
  unfold retrieve_boundary
  rw [retrieve_boundary_fold]
  rw [min_top_left, min_top_left, max_bot_left, max_bot_left]

/-- C6: `retrieve_boundary` returns the per-coordinate min/max across all
regions' bounding boxes — the minimum of the per-region `min_lon`s, the
minimum of the `min_lat`s, the maximum of the `max_lon`s and the maximum
of the `max_lat`s (as `⊤`/`⊥`-valued minima/maxima of the mapped lists,
matching the `float('inf')` starting accumulators) — and the result is
invariant under any permutation of the region list. -/
theorem retrieve_boundary_minmax_perm (lookup : String → BBox)
    (regions regions' : List String) (hperm : regions.Perm regions') :
    retrieve_boundary lookup regions =
      ((regions.map (fun r => (lookup r).min_lon)).minimum,
       (regions.map (fun r => (lookup r).min_lat)).minimum,
       (regions.map (fun r => (lookup r).max_lon)).maximum,
       (regions.map (fun r => (lookup r).max_lat)).maximum) ∧
    retrieve_boundary lookup regions = retrieve_boundary lookup regions' := by
  refine ⟨retrieve_boundary_eq lookup regions, ?_⟩
  rw [retrieve_boundary_eq lookup regions, retrieve_boundary_eq lookup regions']
  rw [minimum_of_perm (hperm.map (fun r => (lookup r).min_lon)),
    minimum_of_perm (hperm.map (fun r => (lookup r).min_lat)),
    maximum_of_perm (hperm.map (fun r => (lookup r).max_lon)),
    maximum_of_perm (hperm.map (fun r => (lookup r).max_lat))]

/-- A concrete two-region geocoding table for the C6 witness. -/
def c6Lookup : String → BBox := fun r =>
  if r = "a" then ⟨1, 2, 3, 4⟩ else ⟨0, 5, 9, 2⟩

/-- Witness for C6 on the two-region list `["a", "b"]` and its swap. -/
theorem retrieve_boundary_minmax_perm_witness :
    retrieve_boundary c6Lookup ["a", "b"] =
      ((["a", "b"].map (fun r => (c6Lookup r).min_lon)).minimum,
       (["a", "b"].map (fun r => (c6Lookup r).min_lat)).minimum,
       (["a", "b"].map (fun r => (c6Lookup r).max_lon)).maximum,
       (["a", "b"].map (fun r => (c6Lookup r).max_lat)).maximum) ∧
    retrieve_boundary c6Lookup ["a", "b"] = retrieve_boundary c6Lookup ["b", "a"] :=
  retrieve_boundary_minmax_perm c6Lookup ["a", "b"] ["b", "a"] (by decide)

/-! ## C8: `add_edge_distances` -/

lemma add_edge_distances_step_endpoints (dist : ℚ × ℚ → ℚ × ℚ → ℚ)
    (e : Nat × Nat × EdgeData) :
    ((match e.2.2.geometry with
      | some [p0, p1] =>
        (e.1, e.2.1,
          { e.2.2 with distance := some (dist (p0.2, p0.1) (p1.2, p1.1)) })
      | _ => e) : Nat × Nat × EdgeData).1 = e.1 ∧
    ((match e.2.2.geometry with
      | some [p0, p1] =>
        (e.1, e.2.1,
          { e.2.2 with distance := some (dist (p0.2, p0.1) (p1.2, p1.1)) })
      | _ => e) : Nat × Nat × EdgeData).2.1 = e.2.1 := by
  rcases hg : e.2.2.geometry with _ | ⟨_ | ⟨p0, _ | ⟨p1, _ | _⟩⟩⟩ <;> simp [hg]

/-- C8: `add_edge_distances` does not alter topology — the node list, the
`crs` marker and the sequence of directed endpoints (hence the multiset of
directed edges) are unchanged — and edge-wise it only annotates: an edge
whose geometry has exactly two points gets its `distance` attribute set to
the geodesic of the two `(lat, lon)`-swapped points with everything else
kept, while an edge lacking a geometry attribute or whose geometry does
not have exactly two points is left entirely unchanged; no error is
raised (the function is total) and no default distance is written. -/
theorem add_edge_distances_frame (dist : ℚ × ℚ → ℚ × ℚ → ℚ) (g : NXGraph) :
    (add_edge_distances dist g).nodes = g.nodes ∧
    (add_edge_distances dist g).crs = g.crs ∧
    (add_edge_distances dist g).edges.map (fun e => (e.1, e.2.1)) =
      g.edges.map (fun e => (e.1, e.2.1)) ∧
    List.Forall₂
      (fun (e e' : Nat × Nat × EdgeData) =>
        (∀ p0 p1, e.2.2.geometry = some [p0, p1] →
          e' = (e.1, e.2.1,
            { e.2.2 with distance := some (dist (p0.2, p0.1) (p1.2, p1.1)) })) ∧
        ((∀ p0 p1, e.2.2.geometry ≠ some [p0, p1]) → e' = e))
      g.edges (add_edge_distances dist g).edges := by
  refine ⟨rfl, rfl, ?_, ?_⟩
  · show (g.edges.map _).map _ = _
    rw [List.map_map]
    refine List.map_congr_left ?_
    intro e _
    have h := add_edge_distances_step_endpoints dist e
    exact Prod.ext h.1 h.2
  · show List.Forall₂ _ g.edges (g.edges.map _)
    induction g.edges with
    | nil => exact List.Forall₂.nil
    | cons e t ih =>
      refine List.Forall₂.cons ⟨?_, ?_⟩ ih
      · intro p0 p1 hg
        simp only [hg]
      · intro hg
        rcases hge : e.2.2.geometry with _ | ⟨_ | ⟨p0, _ | ⟨p1, _ | _⟩⟩⟩ <;>
          simp only [hge]
        exact absurd hge (hg p0 p1)

/-- A nominal stand-in for `geodesic(..).meters` in the C8 witness. -/
def c8Dist : ℚ × ℚ → ℚ × ℚ → ℚ := fun p q => (q.1 - p.1) + (q.2 - p.2)

/-- A concrete graph for the C8 witness: one edge with a two-point
geometry, one edge with no geometry attribute. -/
def c8Graph : NXGraph :=
  { nodes := [(1, some (1, 2)), (2, some (3, 4))]
    edges := [(1, 2, { highway := some "residential", geometry := some [(1, 2), (3, 4)] }),
              (2, 1, { highway := some "residential" })]
    crs := some "epsg:4326" }

/-- Witness for C8 at the concrete graph `c8Graph`. -/
theorem add_edge_distances_frame_witness :
    (add_edge_distances c8Dist c8Graph).nodes = c8Graph.nodes ∧
    (add_edge_distances c8Dist c8Graph).crs = c8Graph.crs ∧
    (add_edge_distances c8Dist c8Graph).edges.map (fun e => (e.1, e.2.1)) =
      c8Graph.edges.map (fun e => (e.1, e.2.1)) ∧
    List.Forall₂
      (fun (e e' : Nat × Nat × EdgeData) =>
        (∀ p0 p1, e.2.2.geometry = some [p0, p1] →
          e' = (e.1, e.2.1,
            { e.2.2 with distance := some (c8Dist (p0.2, p0.1) (p1.2, p1.1)) })) ∧
        ((∀ p0 p1, e.2.2.geometry ≠ some [p0, p1]) → e' = e))
      c8Graph.edges (add_edge_distances c8Dist c8Graph).edges :=
  add_edge_distances_frame c8Dist c8Graph

/-! ## Extractor state lemmas -/

lemma processSegment_nodes (ow : Bool) (rt : String) (st : ExtractorState)
    (pr : Nat × Nat) : (processSegment ow rt st pr).nodes = st.nodes := by
  unfold processSegment
  cases h1 : dictGet? st.nodes pr.1 <;> cases h2 : dictGet? st.nodes pr.2 <;>
    cases ow <;> rfl

lemma processSegment_fields (ow : Bool) (rt : String) (st : ExtractorState)
    (pr : Nat × Nat) :
    (processSegment ow rt st pr).min_lon = st.min_lon ∧
    (processSegment ow rt st pr).min_lat = st.min_lat ∧
    (processSegment ow rt st pr).max_lon = st.max_lon ∧
    (processSegment ow rt st pr).max_lat = st.max_lat ∧
    (processSegment ow rt st pr).valid_road_types = st.valid_road_types := by
  unfold processSegment
  cases h1 : dictGet? st.nodes pr.1 <;> cases h2 : dictGet? st.nodes pr.2 <;>
    cases ow <;> exact ⟨rfl, rfl, rfl, rfl, rfl⟩

lemma processSegment_edges_grow (ow : Bool) (rt : String) (st : ExtractorState)
    (pr : Nat × Nat) : ∃ l, (processSegment ow rt st pr).edges = st.edges ++ l := by
  unfold processSegment
  cases h1 : dictGet? st.nodes pr.1 with
  | none =>
    cases h2 : dictGet? st.nodes pr.2 <;> exact ⟨[], (List.append_nil _).symm⟩
  | some p =>
    cases h2 : dictGet? st.nodes pr.2 with
    | none => exact ⟨[], (List.append_nil _).symm⟩
    | some q =>
      cases ow with
      | false =>
        exact ⟨[(pr.1, pr.2, { highway := some rt, geometry := some [p, q] }, st.nextId),
                (pr.2, pr.1, { highway := some rt, geometry := some [p, q] }, st.nextId)],
          by simp⟩
      | true =>
        exact ⟨[(pr.1, pr.2, { highway := some rt, geometry := some [p, q] }, st.nextId)], rfl⟩

lemma foldSegments_nodes (ow : Bool) (rt : String) :
    ∀ (prs : List (Nat × Nat)) (st : ExtractorState),
      (prs.foldl (processSegment ow rt) st).nodes = st.nodes := by
  intro prs
  induction prs with
  | nil => intro st; rfl
  | cons pr t ih =>
    intro st
    rw [List.foldl_cons, ih, processSegment_nodes]

lemma foldSegments_fields (ow : Bool) (rt : String) :
    ∀ (prs : List (Nat × Nat)) (st : ExtractorState),
      (prs.foldl (processSegment ow rt) st).min_lon = st.min_lon ∧
      (prs.foldl (processSegment ow rt) st).min_lat = st.min_lat ∧
      (prs.foldl (processSegment ow rt) st).max_lon = st.max_lon ∧
      (prs.foldl (processSegment ow rt) st).max_lat = st.max_lat ∧
      (prs.foldl (processSegment ow rt) st).valid_road_types = st.valid_road_types := by
  intro prs
  induction prs with
  | nil => intro st; exact ⟨rfl, rfl, rfl, rfl, rfl⟩
  | cons pr t ih =>
    intro st
    obtain ⟨f1, f2, f3, f4, f5⟩ := processSegment_fields ow rt st pr
    obtain ⟨g1, g2, g3, g4, g5⟩ := ih (processSegment ow rt st pr)
    rw [List.foldl_cons]
    exact ⟨g1.trans f1, g2.trans f2, g3.trans f3, g4.trans f4, g5.trans f5⟩

lemma foldSegments_edges_grow (ow : Bool) (rt : String) :
    ∀ (prs : List (Nat × Nat)) (st : ExtractorState),
      ∃ l, (prs.foldl (processSegment ow rt) st).edges = st.edges ++ l := by
  intro prs
  induction prs with
  | nil => intro st; exact ⟨[], (List.append_nil _).symm⟩
  | cons pr t ih =>
    intro st
    obtain ⟨l1, h1⟩ := processSegment_edges_grow ow rt st pr
    obtain ⟨l2, h2⟩ := ih (processSegment ow rt st pr)
    exact ⟨l1 ++ l2, by rw [List.foldl_cons, h2, h1, List.append_assoc]⟩

lemma wayHandler_nodes (s : ExtractorState) (tags : List (String × String))
    (refs : List Nat) : (wayHandler s tags refs).nodes = s.nodes := by
  unfold wayHandler
  split
  · rfl
  · split
    · exact foldSegments_nodes _ _ _ _
    · rfl

lemma wayHandler_fields (s : ExtractorState) (tags : List (String × String))
    (refs : List Nat) :
    (wayHandler s tags refs).min_lon = s.min_lon ∧
    (wayHandler s tags refs).min_lat = s.min_lat ∧
    (wayHandler s tags refs).max_lon = s.max_lon ∧
    (wayHandler s tags refs).max_lat = s.max_lat ∧
    (wayHandler s tags refs).valid_road_types = s.valid_road_types := by
  unfold wayHandler
  split
  · exact ⟨rfl, rfl, rfl, rfl, rfl⟩
  · split
    · exact foldSegments_fields _ _ _ _
    · exact ⟨rfl, rfl, rfl, rfl, rfl⟩

lemma nodeHandler_fields (s : ExtractorState) (id : Nat) (lon lat : ℚ) :
    (nodeHandler s id lon lat).min_lon = s.min_lon ∧
    (nodeHandler s id lon lat).min_lat = s.min_lat ∧
    (nodeHandler s id lon lat).max_lon = s.max_lon ∧
    (nodeHandler s id lon lat).max_lat = s.max_lat ∧
    (nodeHandler s id lon lat).valid_road_types = s.valid_road_types := by
  unfold nodeHandler
  split <;> exact ⟨rfl, rfl, rfl, rfl, rfl⟩

lemma handleElement_fields (s : ExtractorState) (ev : OSMElement) :
    (handleElement s ev).min_lon = s.min_lon ∧
    (handleElement s ev).min_lat = s.min_lat ∧
    (handleElement s ev).max_lon = s.max_lon ∧
    (handleElement s ev).max_lat = s.max_lat ∧
    (handleElement s ev).valid_road_types = s.valid_road_types := by
  cases ev with
  | node id lon lat => exact nodeHandler_fields s id lon lat
  | way tags refs => exact wayHandler_fields s tags refs

lemma inBox_handleElement (s : ExtractorState) (ev : OSMElement) (lon lat : ℚ) :
    inBox (handleElement s ev) lon lat ↔ inBox s lon lat := by
  obtain ⟨h1, h2, h3, h4, _⟩ := handleElement_fields s ev
  unfold inBox
  rw [h1, h2, h3, h4]

/-! ## C7: edge endpoints are members of the node set -/

/-- Every emitted edge's endpoints are keys of the extractor's node
table. -/
def EdgesClosed (s : ExtractorState) : Prop :=
  ∀ e ∈ s.edges, keyMem s.nodes e.1 ∧ keyMem s.nodes e.2.1

lemma processSegment_closed (ow : Bool) (rt : String) (st : ExtractorState)
    (pr : Nat × Nat) (h : EdgesClosed st) :
    EdgesClosed (processSegment ow rt st pr) := by
  intro e he
  rw [processSegment_nodes]
  unfold processSegment at he
  cases h1 : dictGet? st.nodes pr.1 with
  | none =>
    rw [h1] at he
    exact h e he
  | some p =>
    cases h2 : dictGet? st.nodes pr.2 with
    | none =>
      rw [h1, h2] at he
      exact h e he
    | some q =>
      rw [h1, h2] at he
      have hp : keyMem st.nodes pr.1 := ⟨p, dictGet?_eq_some_mem h1⟩
      have hq : keyMem st.nodes pr.2 := ⟨q, dictGet?_eq_some_mem h2⟩
      cases ow with
      | false =>
        simp only [Bool.false_eq_true, if_false, List.append_assoc] at he
        rcases List.mem_append.mp he with hm | hm
        · exact h e hm
        · rcases List.mem_append.mp hm with hm' | hm'
          · rw [List.mem_singleton] at hm'
            subst hm'
            exact ⟨hp, hq⟩
          · rw [List.mem_singleton] at hm'
            subst hm'
            exact ⟨hq, hp⟩
      | true =>
        simp only [if_true] at he
        rcases List.mem_append.mp he with hm | hm
        · exact h e hm
        · rw [List.mem_singleton] at hm
          subst hm
          exact ⟨hp, hq⟩

lemma foldSegments_closed (ow : Bool) (rt : String) :
    ∀ (prs : List (Nat × Nat)) (st : ExtractorState),
      EdgesClosed st → EdgesClosed (prs.foldl (processSegment ow rt) st) := by
  intro prs
  induction prs with
  | nil => intro st h; exact h
  | cons pr t ih =>
    intro st h
    exact ih _ (processSegment_closed ow rt st pr h)

lemma nodeHandler_closed (s : ExtractorState) (id : Nat) (lon lat : ℚ)
    (h : EdgesClosed s) : EdgesClosed (nodeHandler s id lon lat) := by
  unfold nodeHandler
  split
  · intro e he
    obtain ⟨h1, h2⟩ := h e he
    exact ⟨(keyMem_dictInsert _ _ _ _).mpr (Or.inr h1),
      (keyMem_dictInsert _ _ _ _).mpr (Or.inr h2)⟩
  · exact h

lemma wayHandler_closed (s : ExtractorState) (tags : List (String × String))
    (refs : List Nat) (h : EdgesClosed s) : EdgesClosed (wayHandler s tags refs) := by
  unfold wayHandler
  split
  · exact h
  · split
    · exact foldSegments_closed _ _ _ _ h
    · exact h

lemma handleElement_closed (s : ExtractorState) (ev : OSMElement)
    (h : EdgesClosed s) : EdgesClosed (handleElement s ev) := by
  cases ev with
  | node id lon lat => exact nodeHandler_closed s id lon lat h
  | way tags refs => exact wayHandler_closed s tags refs h

lemma runExtractor_closed :
    ∀ (evs : List OSMElement) (s : ExtractorState),
      EdgesClosed s → EdgesClosed (runExtractor s evs) := by
  intro evs
  induction evs with
  | nil => intro s h; exact h
  | cons ev t ih =>
    intro s h
    exact ih _ (handleElement_closed s ev h)

lemma add_node_nodeIds_mem (g : NXGraph) (id : Nat) (xy : ℚ × ℚ) (k : Nat) :
    k ∈ nodeIds (add_node g id xy) ↔ k = id ∨ k ∈ nodeIds g := by
  unfold add_node
  split
  case isTrue hmem =>
    have hids : nodeIds { g with
        nodes := g.nodes.map (fun p => if p.1 = id then (id, some xy) else p) } =
        nodeIds g := by
      unfold nodeIds
      simp only [List.map_map]
      refine List.map_congr_left ?_
      intro p _
      by_cases hp : p.1 = id <;> simp [hp]
    rw [hids]
    constructor
    · exact Or.inr
    · rintro (rfl | hk)
      · exact hmem
      · exact hk
  case isFalse hmem =>
    show k ∈ (g.nodes ++ [(id, some xy)]).map (fun p => p.1) ↔ _
    rw [List.map_append, List.mem_append]
    simp only [List.map_cons, List.map_nil, List.mem_singleton]
    rw [or_comm]
    rfl

lemma add_node_edges (g : NXGraph) (id : Nat) (xy : ℚ × ℚ) :
    (add_node g id xy).edges = g.edges := by
  unfold add_node
  split <;> rfl

lemma foldAddNodes_nodeIds_mem :
    ∀ (l : List (Nat × (ℚ × ℚ))) (g : NXGraph) (k : Nat),
      k ∈ nodeIds (l.foldl (fun g p => add_node g p.1 p.2) g) ↔
        k ∈ l.map Prod.fst ∨ k ∈ nodeIds g := by
  intro l
  induction l with
  | nil =>
    intro g k
    simp
  | cons p t ih =>
    intro g k
    rw [List.foldl_cons, ih, add_node_nodeIds_mem]
    simp only [List.map_cons, List.mem_cons]
    tauto

lemma foldAddNodes_edges :
    ∀ (l : List (Nat × (ℚ × ℚ))) (g : NXGraph),
      (l.foldl (fun g p => add_node g p.1 p.2) g).edges = g.edges := by
  intro l
  induction l with
  | nil => intro g; rfl
  | cons p t ih =>
    intro g
    rw [List.foldl_cons, ih, add_node_edges]

lemma addMissing_of_mem {g : NXGraph} {u : Nat} (h : u ∈ nodeIds g) :
    addMissing g u = g := by
  unfold addMissing
  rw [if_pos h]

lemma add_edge_of_mem {g : NXGraph} {u v : Nat} (d : EdgeData)
    (hu : u ∈ nodeIds g) (hv : v ∈ nodeIds g) :
    add_edge g u v d = { g with edges := g.edges ++ [(u, v, d)] } := by
  unfold add_edge
  rw [addMissing_of_mem hu, addMissing_of_mem hv]

lemma foldAddEdges_spec :
    ∀ (l : List (Nat × Nat × EdgeData × Nat)) (g : NXGraph),
      (∀ e ∈ l, e.1 ∈ nodeIds g ∧ e.2.1 ∈ nodeIds g) →
      (l.foldl (fun g e => add_edge g e.1 e.2.1 e.2.2.1) g).nodes = g.nodes ∧
      ∀ e' ∈ (l.foldl (fun g e => add_edge g e.1 e.2.1 e.2.2.1) g).edges,
        e' ∈ g.edges ∨ ∃ e ∈ l, e' = (e.1, e.2.1, e.2.2.1) := by
  intro l
  induction l with
  | nil =>
    intro g _
    exact ⟨rfl, fun e' he' => Or.inl he'⟩
  | cons e t ih =>
    intro g hend
    obtain ⟨hu, hv⟩ := hend e (List.mem_cons_self e t)
    have hstep : add_edge g e.1 e.2.1 e.2.2.1 =
        { g with edges := g.edges ++ [(e.1, e.2.1, e.2.2.1)] } :=
      add_edge_of_mem e.2.2.1 hu hv
    have hend' : ∀ e'' ∈ t,
        e''.1 ∈ nodeIds { g with edges := g.edges ++ [(e.1, e.2.1, e.2.2.1)] } ∧
        e''.2.1 ∈ nodeIds { g with edges := g.edges ++ [(e.1, e.2.1, e.2.2.1)] } := by
      intro e'' he''
      exact hend e'' (List.mem_cons_of_mem e he'')
    obtain ⟨ihn, ihe⟩ := ih _ hend'
    rw [List.foldl_cons, hstep]
    refine ⟨ihn, ?_⟩
    intro e' he'
    rcases ihe e' he' with hm | hm
    · rcases List.mem_append.mp hm with hm' | hm'
      · exact Or.inl hm'
      · rw [List.mem_singleton] at hm'
        exact Or.inr ⟨e, List.mem_cons_self e t, hm'⟩
    · obtain ⟨e'', he'', heq⟩ := hm
      exact Or.inr ⟨e'', List.mem_cons_of_mem e he'', heq⟩

lemma initExtractor_closed (bbox : ℚ × ℚ × ℚ × ℚ) (rts : List String) :
    EdgesClosed (initExtractor bbox rts) := by
  intro e he
  exact absurd he (List.not_mem_nil e)

lemma assembleGraph_nodeIds_mem (ex : ExtractorState)
    (hclosed : EdgesClosed ex) (k : Nat) :
    k ∈ nodeIds (assembleGraph ex) ↔ keyMem ex.nodes k := by
  have hend : ∀ e ∈ ex.edges,
      e.1 ∈ nodeIds (ex.nodes.foldl (fun g p => add_node g p.1 p.2) {}) ∧
      e.2.1 ∈ nodeIds (ex.nodes.foldl (fun g p => add_node g p.1 p.2) {}) := by
    intro e he
    obtain ⟨h1, h2⟩ := hclosed e he
    rw [keyMem_iff_mem_keys] at h1 h2
    constructor
    · rw [foldAddNodes_nodeIds_mem]
      exact Or.inl h1
    · rw [foldAddNodes_nodeIds_mem]
      exact Or.inl h2
  obtain ⟨hn, _⟩ := foldAddEdges_spec ex.edges _ hend
  show k ∈ ((ex.edges.foldl (fun g e => add_edge g e.1 e.2.1 e.2.2.1)
      (ex.nodes.foldl (fun g p => add_node g p.1 p.2) {})).nodes.map (fun p => p.1)) ↔ _
  rw [hn]
  have := foldAddNodes_nodeIds_mem ex.nodes {} k
  rw [keyMem_iff_mem_keys]
  unfold nodeIds at this
  rw [this]
  simp

/-- C7: every edge the extractor emits has both endpoint ids present in
the node table (`RoadGraphExtractor.way` checks
`start.ref in self.nodes and end.ref in self.nodes`); `generate_road_graph`
adds one graph node per node-table entry before adding any edge, so in the
assembled graph the node-id set is exactly the node table's key set and
every edge's source and target are members of the graph's node set. -/
theorem assembled_edge_endpoints_in_nodes (bbox : ℚ × ℚ × ℚ × ℚ)
    (rts : List String) (evs : List OSMElement) :
    (∀ e ∈ (runExtractor (initExtractor bbox rts) evs).edges,
        keyMem (runExtractor (initExtractor bbox rts) evs).nodes e.1 ∧
        keyMem (runExtractor (initExtractor bbox rts) evs).nodes e.2.1) ∧
    (∀ k, k ∈ nodeIds (assembleGraph (runExtractor (initExtractor bbox rts) evs)) ↔
        keyMem (runExtractor (initExtractor bbox rts) evs).nodes k) ∧
    (∀ e ∈ (assembleGraph (runExtractor (initExtractor bbox rts) evs)).edges,
        e.1 ∈ nodeIds (assembleGraph (runExtractor (initExtractor bbox rts) evs)) ∧
        e.2.1 ∈ nodeIds (assembleGraph (runExtractor (initExtractor bbox rts) evs))) := by
  have hclosed : EdgesClosed (runExtractor (initExtractor bbox rts) evs) :=
    runExtractor_closed evs _ (initExtractor_closed bbox rts)
  refine ⟨hclosed, assembleGraph_nodeIds_mem _ hclosed, ?_⟩
  intro e he
  have hend : ∀ e' ∈ (runExtractor (initExtractor bbox rts) evs).edges,
      e'.1 ∈ nodeIds ((runExtractor (initExtractor bbox rts) evs).nodes.foldl
        (fun g p => add_node g p.1 p.2) {}) ∧
      e'.2.1 ∈ nodeIds ((runExtractor (initExtractor bbox rts) evs).nodes.foldl
        (fun g p => add_node g p.1 p.2) {}) := by
    intro e' he'
    obtain ⟨h1, h2⟩ := hclosed e' he'
    rw [keyMem_iff_mem_keys] at h1 h2
    constructor
    · rw [foldAddNodes_nodeIds_mem]
      exact Or.inl h1
    · rw [foldAddNodes_nodeIds_mem]
      exact Or.inl h2
  obtain ⟨hn, hedges⟩ := foldAddEdges_spec (runExtractor (initExtractor bbox rts) evs).edges _ hend
  have he' : e ∈ ((runExtractor (initExtractor bbox rts) evs).edges.foldl
      (fun g e => add_edge g e.1 e.2.1 e.2.2.1)
      ((runExtractor (initExtractor bbox rts) evs).nodes.foldl
        (fun g p => add_node g p.1 p.2) {})).edges := he
  rcases hedges e he' with hm | hm
  · rw [foldAddNodes_edges] at hm
    exact absurd hm (List.not_mem_nil e)
  · obtain ⟨e0, he0, heq⟩ := hm
    obtain ⟨h1, h2⟩ := hclosed e0 he0
    constructor
    · rw [assembleGraph_nodeIds_mem _ hclosed]
      rw [heq]
      exact h1
    · rw [assembleGraph_nodeIds_mem _ hclosed]
      rw [heq]
      exact h2

/-! ## C4: node table membership is exactly the bounding-box test -/

lemma nodeIdsOf_node_cons (id : Nat) (lon lat : ℚ) (evs : List OSMElement) :
    nodeIdsOf (OSMElement.node id lon lat :: evs) = id :: nodeIdsOf evs := rfl

lemma nodeIdsOf_way_cons (tags : List (String × String)) (refs : List Nat)
    (evs : List OSMElement) :
    nodeIdsOf (OSMElement.way tags refs :: evs) = nodeIdsOf evs := rfl

lemma runExtractor_keyMem_untouched :
    ∀ (evs : List OSMElement) (s : ExtractorState) (id : Nat),
      id ∉ nodeIdsOf evs →
      (keyMem (runExtractor s evs).nodes id ↔ keyMem s.nodes id) := by
  intro evs
  induction evs with
  | nil => intro s id _; exact Iff.rfl
  | cons ev t ih =>
    intro s id h
    cases ev with
    | way tags refs =>
      rw [nodeIdsOf_way_cons] at h
      exact (ih (wayHandler s tags refs) id h).trans (by rw [wayHandler_nodes])
    | node nid nlon nlat =>
      rw [nodeIdsOf_node_cons] at h
      have hne : id ≠ nid := fun he => h (he ▸ List.mem_cons_self _ _)
      have ht : id ∉ nodeIdsOf t := fun hm => h (List.mem_cons_of_mem _ hm)
      refine (ih (nodeHandler s nid nlon nlat) id ht).trans ?_
      unfold nodeHandler
      by_cases hbox : inBox s nlon nlat
      · rw [if_pos hbox]
        show keyMem (dictInsert s.nodes nid (nlon, nlat)) id ↔ _
        rw [keyMem_dictInsert]
        exact or_iff_right hne
      · rw [if_neg hbox]

lemma runExtractor_entries_inBox :
    ∀ (evs : List OSMElement) (s : ExtractorState),
      (∀ id lon lat, (id, (lon, lat)) ∈ s.nodes → inBox s lon lat) →
      ∀ id lon lat, (id, (lon, lat)) ∈ (runExtractor s evs).nodes → inBox s lon lat := by
  intro evs
  induction evs with
  | nil => intro s h; exact h
  | cons ev t ih =>
    intro s h id lon lat hm
    have h' : ∀ id' lon' lat', (id', (lon', lat')) ∈ (handleElement s ev).nodes →
        inBox (handleElement s ev) lon' lat' := by
      intro id' lon' lat' hm'
      rw [inBox_handleElement]
      cases ev with
      | way tags refs =>
        have hm'' : (id', (lon', lat')) ∈ (wayHandler s tags refs).nodes := hm'
        rw [wayHandler_nodes] at hm''
        exact h _ _ _ hm''
      | node nid nlon nlat =>
        have hm'' : (id', (lon', lat')) ∈ (nodeHandler s nid nlon nlat).nodes := hm'
        unfold nodeHandler at hm''
        by_cases hbox : inBox s nlon nlat
        · rw [if_pos hbox] at hm''
          have hm3 : (id', (lon', lat')) ∈ dictInsert s.nodes nid (nlon, nlat) := hm''
          rcases mem_dictInsert_elim hm3 with hold | ⟨_, heq⟩
          · exact h _ _ _ hold
          · obtain ⟨h1, h2⟩ := Prod.mk.injEq .. ▸ heq
            cases Prod.ext_iff.mp heq |>.1
            cases (Prod.ext_iff.mp heq).2
            exact hbox
        · rw [if_neg hbox] at hm''
          exact h _ _ _ hm''
    have := ih (handleElement s ev) h' id lon lat hm
    rw [inBox_handleElement] at this
    exact this

lemma runExtractor_keyMem_iff_inBox :
    ∀ (evs : List OSMElement) (s : ExtractorState),
      (nodeIdsOf evs).Nodup →
      (∀ i ∈ nodeIdsOf evs, ¬ keyMem s.nodes i) →
      ∀ id lon lat, OSMElement.node id lon lat ∈ evs →
        (keyMem (runExtractor s evs).nodes id ↔ inBox s lon lat) := by
  intro evs
  induction evs with
  | nil => intro s _ _ id lon lat hm; exact absurd hm (List.not_mem_nil _)
  | cons ev t ih =>
    intro s hnodup hfresh id lon lat hm
    cases ev with
    | way tags refs =>
      rw [nodeIdsOf_way_cons] at hnodup hfresh
      rcases List.mem_cons.mp hm with heq | hmt
      · exact OSMElement.noConfusion heq
      · have hfresh' : ∀ i ∈ nodeIdsOf t, ¬ keyMem (wayHandler s tags refs).nodes i := by
          intro i hi
          rw [wayHandler_nodes]
          exact hfresh i hi
        exact (ih (wayHandler s tags refs) hnodup hfresh' id lon lat hmt).trans
          (inBox_handleElement s (.way tags refs) lon lat)
    | node nid nlon nlat =>
      rw [nodeIdsOf_node_cons] at hnodup hfresh
      have hnid_not_t : nid ∉ nodeIdsOf t := (List.nodup_cons.mp hnodup).1
      have hnodup_t : (nodeIdsOf t).Nodup := (List.nodup_cons.mp hnodup).2
      have hfresh_nid : ¬ keyMem s.nodes nid := hfresh nid (List.mem_cons_self _ _)
      have hfresh_t : ∀ i ∈ nodeIdsOf t, ¬ keyMem s.nodes i :=
        fun i hi => hfresh i (List.mem_cons_of_mem _ hi)
      rcases List.mem_cons.mp hm with heq | hmt
      · injection heq with h1 h2 h3
        subst h1
        subst h2
        subst h3
        refine (runExtractor_keyMem_untouched t (nodeHandler s id lon lat) id
          hnid_not_t).trans ?_
        unfold nodeHandler
        by_cases hbox : inBox s lon lat
        · rw [if_pos hbox]
          show keyMem (dictInsert s.nodes id (lon, lat)) id ↔ _
          rw [keyMem_dictInsert]
          exact iff_of_true (Or.inl rfl) hbox
        · rw [if_neg hbox]
          exact iff_of_false hfresh_nid hbox
      · have hfresh' : ∀ i ∈ nodeIdsOf t,
            ¬ keyMem (nodeHandler s nid nlon nlat).nodes i := by
          intro i hi
          have hine : i ≠ nid := fun he => hnid_not_t (he ▸ hi)
          unfold nodeHandler
          by_cases hbox : inBox s nlon nlat
          · rw [if_pos hbox]
            show ¬ keyMem (dictInsert s.nodes nid (nlon, nlat)) i
            rw [keyMem_dictInsert]
            rintro (he | hk)
            · exact hine he
            · exact hfresh_t i hi hk
          · rw [if_neg hbox]
            exact hfresh_t i hi
        exact (ih (nodeHandler s nid nlon nlat) hnodup_t hfresh' id lon lat hmt).trans
          (inBox_handleElement s (.node nid nlon nlat) lon lat)

/-- C4: starting from an empty node table and processing a stream whose
node elements carry pairwise-distinct ids, an id is stored in the
extractor's node table if and only if its node element's longitude and
latitude both lie inside the bounding box (inclusive on all four bounds);
consequently every entry of the resulting node table satisfies
`min_lon ≤ lon ≤ max_lon` and `min_lat ≤ lat ≤ max_lat`. -/
theorem node_table_iff_inBox (bbox : ℚ × ℚ × ℚ × ℚ) (rts : List String)
    (evs : List OSMElement) (hnodup : (nodeIdsOf evs).Nodup) :
    (∀ id lon lat, OSMElement.node id lon lat ∈ evs →
      (keyMem (runExtractor (initExtractor bbox rts) evs).nodes id ↔
        inBox (initExtractor bbox rts) lon lat)) ∧
    (∀ id lon lat,
      (id, (lon, lat)) ∈ (runExtractor (initExtractor bbox rts) evs).nodes →
      inBox (initExtractor bbox rts) lon lat) := by
  constructor
  · intro id lon lat hm
    refine runExtractor_keyMem_iff_inBox evs _ hnodup ?_ id lon lat hm
    rintro i _ ⟨v, hv⟩
    exact absurd hv (List.not_mem_nil _)
  · intro id lon lat hm
    refine runExtractor_entries_inBox evs _ ?_ id lon lat hm
    intro id' lon' lat' hm'
    exact absurd hm' (List.not_mem_nil _)

/-- Witness for C4: bounding box `(0, 0, 10, 10)` and a stream with node 1
at `(1, 1)` (inside) and node 2 at `(20, 20)` (outside). -/
theorem node_table_iff_inBox_witness :
    (∀ id lon lat, OSMElement.node id lon lat ∈
        [OSMElement.node 1 1 1, OSMElement.node 2 20 20] →
      (keyMem (runExtractor (initExtractor (0, 0, 10, 10) [])
          [OSMElement.node 1 1 1, OSMElement.node 2 20 20]).nodes id ↔
        inBox (initExtractor (0, 0, 10, 10) []) lon lat)) ∧
    (∀ id lon lat,
      (id, (lon, lat)) ∈ (runExtractor (initExtractor (0, 0, 10, 10) [])
        [OSMElement.node 1 1 1, OSMElement.node 2 20 20]).nodes →
      inBox (initExtractor (0, 0, 10, 10) []) lon lat) :=
  node_table_iff_inBox (0, 0, 10, 10) []
    [OSMElement.node 1 1 1, OSMElement.node 2 20 20] (by decide)

/-! ## C5: oneway determination -/

lemma foldSegments_emits (rt : String) :
    ∀ (prs : List (Nat × Nat)) (st : ExtractorState) (a b : Nat),
      (a, b) ∈ prs → keyMem st.nodes a → keyMem st.nodes b →
      (∃ d i, (a, b, d, i) ∈ (prs.foldl (processSegment false rt) st).edges) ∧
      (∃ d i, (b, a, d, i) ∈ (prs.foldl (processSegment false rt) st).edges) := by
  intro prs
  induction prs with
  | nil => intro st a b hm; exact absurd hm (List.not_mem_nil _)
  | cons pr t ih =>
    intro st a b hm ha hb
    rcases List.mem_cons.mp hm with heq | hmt
    · subst heq
      obtain ⟨pa, hpa⟩ := keyMem_dictGet? ha
      obtain ⟨pb, hpb⟩ := keyMem_dictGet? hb
      have hedges : (processSegment false rt st (a, b)).edges =
          st.edges ++ [(a, b, ⟨some rt, some [pa, pb], none⟩, st.nextId),
                       (b, a, ⟨some rt, some [pa, pb], none⟩, st.nextId)] := by
        unfold processSegment
        rw [hpa, hpb]
        simp
      obtain ⟨l, hl⟩ := foldSegments_edges_grow false rt t (processSegment false rt st (a, b))
      constructor
      · refine ⟨⟨some rt, some [pa, pb], none⟩, st.nextId, ?_⟩
        rw [List.foldl_cons, hl, hedges]
        simp
      · refine ⟨⟨some rt, some [pa, pb], none⟩, st.nextId, ?_⟩
        rw [List.foldl_cons, hl, hedges]
        simp
    · have ha' : keyMem (processSegment false rt st pr).nodes a := by
        rw [processSegment_nodes]; exact ha
      have hb' : keyMem (processSegment false rt st pr).nodes b := by
        rw [processSegment_nodes]; exact hb
      rw [List.foldl_cons]
      exact ih (processSegment false rt st pr) a b hmt ha' hb'

/-- C5: a way is treated as oneway exactly when its `oneway` tag value,
lowercased, is one of `yes`, `true`, `1`; a way with no `oneway` tag
defaults to not-oneway (any other value is likewise not-oneway, since the
test is pure membership in that three-element set), and a not-oneway way
with an accepted road type emits both the forward and the reverse directed
edge for every consecutive reference pair whose two ids are in the node
table. -/
theorem oneway_tag_semantics (tags : List (String × String))
    (s : ExtractorState) (refs : List Nat) :
    (isOneway tags = true ↔
      ∃ v, tagsGet tags "oneway" = some v ∧
        strLower v ∈ (["yes", "true", "1"] : List String)) ∧
    (tagsGet tags "oneway" = none → isOneway tags = false) ∧
    (∀ rt a b, tagsGet tags "highway" = some rt → rt ∈ s.valid_road_types →
      isOneway tags = false → (a, b) ∈ refs.dropLast.zip refs.tail →
      keyMem s.nodes a → keyMem s.nodes b →
      (∃ d i, (a, b, d, i) ∈ (wayHandler s tags refs).edges) ∧
      (∃ d i, (b, a, d, i) ∈ (wayHandler s tags refs).edges)) := by
  refine ⟨?_, ?_, ?_⟩
  · unfold isOneway
    rw [decide_eq_true_eq]
    cases h : tagsGet tags "oneway" with
    | none =>
      simp only [Option.getD_none]
      constructor
      · intro hmem
        exact absurd hmem (by decide)
      · rintro ⟨v, hv, _⟩
        exact Option.noConfusion hv
    | some v =>
      simp only [Option.getD_some]
      constructor
      · intro hmem
        exact ⟨v, rfl, hmem⟩
      · rintro ⟨v', hv', hmem⟩
        injection hv' with hv2
        subst hv2
        exact hmem
  · intro h
    unfold isOneway
    rw [h]
    decide
  · intro rt a b hhw hvalid honeway hpair ha hb
    unfold wayHandler
    simp only [hhw]
    rw [if_pos hvalid, honeway]
    exact foldSegments_emits rt _ s a b hpair ha hb

/-- A concrete extractor state for the C5 witness: two in-table nodes and
`primary` accepted. -/
def c5State : ExtractorState :=
  { min_lon := 0, min_lat := 0, max_lon := 10, max_lat := 10
    valid_road_types := ["primary"]
    nodes := [(1, (1, 2)), (2, (3, 4))] }

/-- Witness for C5: the oneway test on a way with no `oneway` tag, and
both directed edges emitted for the pair `(1, 2)` of an accepted
not-oneway way. -/
theorem oneway_tag_semantics_witness :
    (isOneway [("highway", "primary")] = true ↔
      ∃ v, tagsGet [("highway", "primary")] "oneway" = some v ∧
        strLower v ∈ (["yes", "true", "1"] : List String)) ∧
    (tagsGet [("highway", "primary")] "oneway" = none →
      isOneway [("highway", "primary")] = false) ∧
    (∃ d i, (1, 2, d, i) ∈ (wayHandler c5State [("highway", "primary")] [1, 2]).edges) ∧
    (∃ d i, (2, 1, d, i) ∈ (wayHandler c5State [("highway", "primary")] [1, 2]).edges) :=
  ⟨(oneway_tag_semantics [("highway", "primary")] c5State [1, 2]).1,
   (oneway_tag_semantics [("highway", "primary")] c5State [1, 2]).2.1,
   ((oneway_tag_semantics [("highway", "primary")] c5State [1, 2]).2.2 "primary" 1 2
      (by decide) (by decide) (by decide) (by decide) (by decide) (by decide)).1,
   ((oneway_tag_semantics [("highway", "primary")] c5State [1, 2]).2.2 "primary" 1 2
      (by decide) (by decide) (by decide) (by decide) (by decide) (by decide)).2⟩

/-! ## C3: the largest weakly connected component -/

lemma subset_expandStep (g : NXGraph) (s : Finset Nat) : s ⊆ expandStep g s :=
  Finset.subset_union_left

lemma expandStep_subset (g : NXGraph) (s : Finset Nat) (hs : s ⊆ nodeSet g) :
    expandStep g s ⊆ nodeSet g :=
  Finset.union_subset hs (Finset.filter_subset _ _)

lemma iterate_subset_nodeSet (g : NXGraph) (v : Nat) (hv : v ∈ nodeSet g) :
    ∀ k, (expandStep g)^[k] {v} ⊆ nodeSet g := by
  intro k
  induction k with
  | zero => simpa using Finset.singleton_subset_iff.mpr hv
  | succ k ih =>
    rw [Function.iterate_succ_apply']
    exact expandStep_subset g _ ih

lemma subset_iterate_self (g : NXGraph) (s : Finset Nat) :
    ∀ k, s ⊆ (expandStep g)^[k] s := by
  intro k
  induction k with
  | zero => exact fun x hx => hx
  | succ k ih =>
    rw [Function.iterate_succ_apply']
    exact ih.trans (subset_expandStep g _)

lemma iterate_chain_mono (g : NXGraph) (s : Finset Nat) (k : Nat) :
    (expandStep g)^[k] s ⊆ (expandStep g)^[k + 1] s := by
  rw [Function.iterate_succ_apply']
  exact subset_expandStep g _

lemma iterate_stab (g : NXGraph) (s : Finset Nat) (k : Nat)
    (h : (expandStep g)^[k + 1] s = (expandStep g)^[k] s) :
    ∀ m, k ≤ m → (expandStep g)^[m] s = (expandStep g)^[k] s := by
  intro m
  induction m with
  | zero =>
    intro hm
    cases Nat.le_zero.mp hm
    rfl
  | succ m ih =>
    intro hm
    rcases Nat.lt_or_ge k (m + 1) with hlt | hge
    · have hkm : k ≤ m := Nat.lt_succ_iff.mp hlt
      rw [Function.iterate_succ_apply', ih hkm,
        ← Function.iterate_succ_apply' (expandStep g) k s]
      exact h
    · have hk : k = m + 1 := Nat.le_antisymm hm hge
      rw [hk]

lemma iterate_card_growth (g : NXGraph) (s : Finset Nat) :
    ∀ n, (∀ j, j < n → (expandStep g)^[j + 1] s ≠ (expandStep g)^[j] s) →
      s.card + n ≤ ((expandStep g)^[n] s).card := by
  intro n
  induction n with
  | zero => intro _; simp
  | succ n ih =>
    intro h
    have h1 := ih (fun j hj => h j (Nat.lt_succ_of_lt hj))
    have hne := h n (Nat.lt_succ_self n)
    have hss : (expandStep g)^[n] s ⊂ (expandStep g)^[n + 1] s :=
      Finset.ssubset_iff_subset_ne.mpr ⟨iterate_chain_mono g s n, fun he => hne he.symm⟩
    have hlt := Finset.card_lt_card hss
    omega

lemma component_fixpoint (g : NXGraph) (v : Nat) (hv : v ∈ nodeSet g) :
    expandStep g (component g v) = component g v := by
  unfold component
  by_cases hex : ∃ j, j < (nodeSet g).card ∧
      (expandStep g)^[j + 1] {v} = (expandStep g)^[j] {v}
  · obtain ⟨j, hjn, hj⟩ := hex
    have hstab := iterate_stab g {v} j hj
    have h1 : (expandStep g)^[(nodeSet g).card] {v} = (expandStep g)^[j] {v} :=
      hstab _ (le_of_lt hjn)
    have h2 : (expandStep g)^[(nodeSet g).card + 1] {v} = (expandStep g)^[j] {v} :=
      hstab _ (by omega)
    rw [← Function.iterate_succ_apply' (expandStep g) (nodeSet g).card {v}, h1, h2]
  · push_neg at hex
    exfalso
    have hcard := iterate_card_growth g {v} (nodeSet g).card hex
    have hsub := iterate_subset_nodeSet g v hv (nodeSet g).card
    have hle := Finset.card_le_card hsub
    rw [Finset.card_singleton] at hcard
    omega

lemma wstep_symm {g : NXGraph} {u v : Nat} (h : wstep g u v) : wstep g v u := by
  unfold wstep adjb at h ⊢
  rw [List.any_eq_true] at h ⊢
  obtain ⟨e, he, hcond⟩ := h
  refine ⟨e, he, ?_⟩
  simp only [Bool.or_eq_true, Bool.and_eq_true] at hcond ⊢
  tauto

lemma adjb_mem_right {g : NXGraph} (hwf : Wellformed g) {u w : Nat}
    (h : adjb g u w = true) : w ∈ nodeSet g := by
  unfold adjb at h
  rw [List.any_eq_true] at h
  obtain ⟨e, he, hcond⟩ := h
  obtain ⟨h1, h2⟩ := hwf e he
  simp only [Bool.or_eq_true, Bool.and_eq_true, beq_iff_eq] at hcond
  unfold nodeSet
  rw [List.mem_toFinset]
  rcases hcond with ⟨he1, he2⟩ | ⟨he1, he2⟩
  · rw [← he2]
    exact h2
  · rw [← he1]
    exact h1

lemma mem_iterate_wreach (g : NXGraph) (v : Nat) :
    ∀ k w, w ∈ (expandStep g)^[k] {v} → wreach g v w := by
  intro k
  induction k with
  | zero =>
    intro w hw
    rw [Function.iterate_zero_apply, Finset.mem_singleton] at hw
    subst hw
    exact Relation.ReflTransGen.refl
  | succ k ih =>
    intro w hw
    rw [Function.iterate_succ_apply'] at hw
    unfold expandStep at hw
    rcases Finset.mem_union.mp hw with hm | hm
    · exact ih w hm
    · obtain ⟨hwn, u, hu, hadj⟩ := Finset.mem_filter.mp hm
      exact Relation.ReflTransGen.tail (ih u hu) hadj

lemma wreach_mem_component (g : NXGraph) (hwf : Wellformed g) {v w : Nat}
    (hv : v ∈ nodeSet g) (h : wreach g v w) : w ∈ component g v := by
  induction h with
  | refl => exact subset_iterate_self g {v} _ (Finset.mem_singleton_self v)
  | tail _ hbc ih =>
    rw [← component_fixpoint g v hv]
    unfold expandStep
    exact Finset.mem_union_right _
      (Finset.mem_filter.mpr ⟨adjb_mem_right hwf hbc, _, ih, hbc⟩)

lemma mem_component_iff (g : NXGraph) (hwf : Wellformed g) {v : Nat}
    (hv : v ∈ nodeSet g) (w : Nat) : w ∈ component g v ↔ wreach g v w :=
  ⟨mem_iterate_wreach g v _ w, wreach_mem_component g hwf hv⟩

lemma wreach_symm {g : NXGraph} {a b : Nat} (h : wreach g a b) : wreach g b a := by
  induction h with
  | refl => exact Relation.ReflTransGen.refl
  | tail _ hbc ih => exact Relation.ReflTransGen.head (wstep_symm hbc) ih

lemma component_eq_of_wreach (g : NXGraph) (hwf : Wellformed g) {u v : Nat}
    (hu : u ∈ nodeSet g) (hv : v ∈ nodeSet g) (h : wreach g u v) :
    component g u = component g v := by
  ext w
  rw [mem_component_iff g hwf hu, mem_component_iff g hwf hv]
  constructor
  · intro hw
    exact Relation.ReflTransGen.trans (wreach_symm h) hw
  · intro hw
    exact Relation.ReflTransGen.trans h hw

lemma self_mem_component (g : NXGraph) (v : Nat) : v ∈ component g v :=
  subset_iterate_self g {v} _ (Finset.mem_singleton_self v)

lemma mem_wccsAux {g : NXGraph} :
    ∀ (vs : List Nat) (seen : Finset Nat) (c : Finset Nat),
      c ∈ wccsAux g vs seen → ∃ v ∈ vs, c = component g v := by
  intro vs
  induction vs with
  | nil => intro seen c hc; exact absurd hc (List.not_mem_nil c)
  | cons v t ih =>
    intro seen c hc
    unfold wccsAux at hc
    by_cases hv : v ∈ seen
    · rw [if_pos hv] at hc
      obtain ⟨u, hu, he⟩ := ih _ _ hc
      exact ⟨u, List.mem_cons_of_mem _ hu, he⟩
    · rw [if_neg hv] at hc
      rcases List.mem_cons.mp hc with heq | hmt
      · exact ⟨v, List.mem_cons_self _ _, heq⟩
      · obtain ⟨u, hu, he⟩ := ih _ _ hmt
        exact ⟨u, List.mem_cons_of_mem _ hu, he⟩

lemma wccsAux_covers (g : NXGraph) :
    ∀ (vs : List Nat) (seen : Finset Nat) (v : Nat), v ∈ vs →
      v ∈ seen ∨ ∃ c ∈ wccsAux g vs seen, v ∈ c := by
  intro vs
  induction vs with
  | nil => intro seen v hv; exact absurd hv (List.not_mem_nil v)
  | cons u t ih =>
    intro seen v hv
    unfold wccsAux
    by_cases hu : u ∈ seen
    · rw [if_pos hu]
      rcases List.mem_cons.mp hv with heq | hmt
      · subst heq
        exact Or.inl hu
      · exact ih seen v hmt
    · rw [if_neg hu]
      rcases List.mem_cons.mp hv with heq | hmt
      · subst heq
        exact Or.inr ⟨component g v, List.mem_cons_self _ _, self_mem_component g v⟩
      · rcases ih (seen ∪ component g u) v hmt with hs | ⟨c, hc, hvc⟩
        · rcases Finset.mem_union.mp hs with h1 | h2
          · exact Or.inl h1
          · exact Or.inr ⟨component g u, List.mem_cons_self _ _, h2⟩
        · exact Or.inr ⟨c, List.mem_cons_of_mem _ hc, hvc⟩

lemma component_mem_wccs (g : NXGraph) (hwf : Wellformed g) {u : Nat}
    (hu : u ∈ nodeIds g) : component g u ∈ wccs g := by
  have hu' : u ∈ nodeSet g := List.mem_toFinset.mpr hu
  rcases wccsAux_covers g (nodeIds g) ∅ u hu with hs | ⟨c, hc, huc⟩
  · exact absurd hs (Finset.not_mem_empty u)
  · obtain ⟨w, hw, hcw⟩ := mem_wccsAux _ _ _ hc
    have hw' : w ∈ nodeSet g := List.mem_toFinset.mpr hw
    subst hcw
    have hr : wreach g w u := (mem_component_iff g hwf hw' u).mp huc
    rw [component_eq_of_wreach g hwf hu' hw' (wreach_symm hr)]
    exact hc

lemma pyMax_fold_spec :
    ∀ (l : List (Finset Nat)) (b : Finset Nat),
      (l.foldl (fun b c => if b.card < c.card then c else b) b = b ∨
        l.foldl (fun b c => if b.card < c.card then c else b) b ∈ l) ∧
      b.card ≤ (l.foldl (fun b c => if b.card < c.card then c else b) b).card ∧
      ∀ c ∈ l, c.card ≤ (l.foldl (fun b c => if b.card < c.card then c else b) b).card := by
  intro l
  induction l with
  | nil =>
    intro b
    exact ⟨Or.inl rfl, le_refl _, fun c hc => absurd hc (List.not_mem_nil c)⟩
  | cons x t ih =>
    intro b
    rw [List.foldl_cons]
    by_cases hx : b.card < x.card
    · rw [if_pos hx]
      obtain ⟨hmem, hble, hall⟩ := ih x
      refine ⟨?_, ?_, ?_⟩
      · rcases hmem with he | hm
        · rw [he]
          exact Or.inr (List.mem_cons_self x t)
        · exact Or.inr (List.mem_cons_of_mem x hm)
      · exact le_trans (le_of_lt hx) hble
      · intro c hc
        rcases List.mem_cons.mp hc with heq | hct
        · rw [heq]
          exact hble
        · exact hall c hct
    · rw [if_neg hx]
      obtain ⟨hmem, hble, hall⟩ := ih b
      refine ⟨?_, ?_, ?_⟩
      · rcases hmem with he | hm
        · exact Or.inl he
        · exact Or.inr (List.mem_cons_of_mem x hm)
      · exact hble
      · intro c hc
        rcases List.mem_cons.mp hc with heq | hct
        · rw [heq]
          exact le_trans (Nat.le_of_not_lt hx) hble
        · exact hall c hct

lemma pyMax_spec {l : List (Finset Nat)} {m : Finset Nat} (h : pyMax l = some m) :
    m ∈ l ∧ ∀ c ∈ l, c.card ≤ m.card := by
  cases l with
  | nil => exact Option.noConfusion h
  | cons x t =>
    unfold pyMax at h
    injection h with h
    subst h
    obtain ⟨hmem, hble, hall⟩ := pyMax_fold_spec t x
    constructor
    · rcases hmem with he | hm
      · rw [he]
        exact List.mem_cons_self x t
      · exact List.mem_cons_of_mem x hm
    · intro c hc
      rcases List.mem_cons.mp hc with heq | hct
      · rw [heq]
        exact hble
      · exact hall c hct

lemma wccs_ne_nil (g : NXGraph) (hne : g.nodes ≠ []) : wccs g ≠ [] := by
  unfold wccs
  have hids : nodeIds g ≠ [] := by
    unfold nodeIds
    intro h
    exact hne (List.map_eq_nil_iff.mp h)
  cases hl : nodeIds g with
  | nil => exact absurd hl hids
  | cons u t =>
    unfold wccsAux
    rw [if_neg (Finset.not_mem_empty u)]
    exact List.cons_ne_nil _ _

lemma isWCC_iff (g : NXGraph) (hwf : Wellformed g) (c : Finset Nat) :
    IsWCC g c ↔ ∃ v ∈ nodeIds g, c = component g v := by
  unfold IsWCC
  constructor
  · rintro ⟨v, hv, hc⟩
    refine ⟨v, hv, ?_⟩
    ext w
    rw [hc w]
    exact (mem_component_iff g hwf (List.mem_toFinset.mpr hv) w).symm
  · rintro ⟨v, hv, rfl⟩
    exact ⟨v, hv, fun w => mem_component_iff g hwf (List.mem_toFinset.mpr hv) w⟩

/-- C3: on every non-empty well-formed multidigraph,
`extract_largest_subgraph` succeeds and returns the induced subgraph of a
weakly connected component whose node count is greater than or equal to
that of every weakly connected component of the input; the result contains
exactly that component's nodes and exactly the input edges whose both
endpoints lie in the component. -/
theorem extract_largest_subgraph_largest_induced (g : NXGraph)
    (hwf : Wellformed g) (hne : g.nodes ≠ []) :
    ∃ c : Finset Nat,
      extract_largest_subgraph g = Except.ok (inducedSubgraph g c) ∧
      IsWCC g c ∧
      (∀ c', IsWCC g c' → c'.card ≤ c.card) ∧
      (∀ x, x ∈ nodeIds (inducedSubgraph g c) ↔ x ∈ c) ∧
      (∀ e, e ∈ (inducedSubgraph g c).edges ↔
        e ∈ g.edges ∧ e.1 ∈ c ∧ e.2.1 ∈ c) := by
  cases hpm : pyMax (wccs g) with
  | none =>
    exfalso
    cases hl : wccs g with
    | nil => exact wccs_ne_nil g hne hl
    | cons x t =>
      rw [hl] at hpm
      exact Option.noConfusion hpm
  | some m =>
    obtain ⟨hmem, hmax⟩ := pyMax_spec hpm
    obtain ⟨v, hv, hm⟩ := mem_wccsAux (g := g) _ _ _ hmem
    have hv' : v ∈ nodeSet g := List.mem_toFinset.mpr hv
    refine ⟨m, ?_, ?_, ?_, ?_, ?_⟩
    · unfold extract_largest_subgraph
      rw [hpm]
    · rw [isWCC_iff g hwf]
      exact ⟨v, hv, hm⟩
    · intro c' hc'
      obtain ⟨u, hu, heq⟩ := (isWCC_iff g hwf c').mp hc'
      rw [heq]
      exact hmax _ (component_mem_wccs g hwf hu)
    · intro x
      constructor
      · intro hx
        unfold inducedSubgraph nodeIds at hx
        rw [List.mem_map] at hx
        obtain ⟨p, hp, hpx⟩ := hx
        rw [List.mem_filter] at hp
        rw [← hpx]
        exact of_decide_eq_true hp.2
      · intro hx
        have hxs : x ∈ nodeSet g := by
          rw [hm] at hx
          exact iterate_subset_nodeSet g v hv' _ hx
        unfold nodeSet at hxs
        rw [List.mem_toFinset] at hxs
        unfold nodeIds at hxs
        rw [List.mem_map] at hxs
        obtain ⟨p, hp, hpx⟩ := hxs
        unfold inducedSubgraph nodeIds
        rw [List.mem_map]
        refine ⟨p, List.mem_filter.mpr ⟨hp, ?_⟩, hpx⟩
        rw [hpx]
        exact decide_eq_true hx
    · intro e
      unfold inducedSubgraph
      show e ∈ g.edges.filter _ ↔ _
      rw [List.mem_filter]
      constructor
      · rintro ⟨he, hcond⟩
        rw [Bool.and_eq_true] at hcond
        exact ⟨he, of_decide_eq_true hcond.1, of_decide_eq_true hcond.2⟩
      · rintro ⟨he, h1, h2⟩
        refine ⟨he, ?_⟩
        rw [Bool.and_eq_true]
        exact ⟨decide_eq_true h1, decide_eq_true h2⟩

/-- A concrete graph for the C3 witness: component `{1, 2}` (joined by one
directed edge) and the isolated node `3`. -/
def c3Graph : NXGraph :=
  { nodes := [(1, some (0, 0)), (2, some (1, 0)), (3, some (5, 5))]
    edges := [(1, 2, { highway := some "residential", geometry := some [(0, 0), (1, 0)] })]
    crs := some "epsg:4326" }

/-- Witness for C3 at the concrete graph `c3Graph`. -/
theorem extract_largest_subgraph_largest_induced_witness :
    ∃ c : Finset Nat,
      extract_largest_subgraph c3Graph = Except.ok (inducedSubgraph c3Graph c) ∧
      IsWCC c3Graph c ∧
      (∀ c', IsWCC c3Graph c' → c'.card ≤ c.card) ∧
      (∀ x, x ∈ nodeIds (inducedSubgraph c3Graph c) ↔ x ∈ c) ∧
      (∀ e, e ∈ (inducedSubgraph c3Graph c).edges ↔
        e ∈ c3Graph.edges ∧ e.1 ∈ c ∧ e.2.1 ∈ c) :=
  extract_largest_subgraph_largest_induced c3Graph (by decide) (by decide)
